/-
Verification development for the TypeScript dependency-analysis tool.

The file shallowly embeds the algorithmic core of the repository:
  * `src/core/parser.ts`  — import-target resolution and dependency-map
    construction (the body of `parseDependencies`);
  * `src/analyzers/heuristicAnalyzer.ts` — DFS cycle detection
    (`findCircularDependencies` / `detectCycle`) and hub detection
    (`findTightlyCoupledModules`);
  * `src/core/server.ts` — the analysis orchestrator (`runFullAnalysis`
    with its `cachedAnalysis` / `isAnalysisRunning` single-flight state,
    the polling waiter, and the `GET /api/analysis` route), modelled as a
    small labelled transition system whose events are the atomic
    synchronous blocks of the JavaScript event loop.

Node's `path` module is platform dependent; the embedding takes the host
path separator as an explicit parameter `sep` ('/' for posix, '\\' for
win32, where both '/' and '\\' split segments).  JavaScript `Map`s are
modelled as insertion-ordered association lists, JavaScript `Set`s as
duplicate-free lists in insertion order.
-/
import Mathlib

/-! ## Path model (Node `path` as used by `src/core/parser.ts`) -/

/-- Segment-splitting characters of the host platform: posix splits on '/',
win32 splits on both '\\' and '/'. -/
def seps (sep : Char) : List Char :=
  if sep = '/' then ['/'] else [sep, '/']

/-- Split a character list at the characters satisfying `p`, keeping empty
pieces, exactly as `String.split` does. -/
def splitOnPred (p : Char → Bool) (l : List Char) : List (List Char) :=
  l.foldr
    (fun c acc =>
      if p c then [] :: acc
      else
        match acc with
        | [] => [[c]]
        | seg :: rest => (c :: seg) :: rest) [[]]

/-- `String.split` at the given separator characters. -/
def splitAtSeps (sep : Char) (p : String) : List String :=
  (splitOnPred (fun c => c ∈ seps sep) p.data).map String.mk

/-- Split a (relative) path into its non-empty segments. -/
def splitSegs (sep : Char) (p : String) : List String :=
  (splitAtSeps sep p).filter (fun s => s ≠ "")

/-- Re-assemble segments using the host separator. -/
def renderPath (sep : Char) (segs : List String) : String :=
  String.intercalate (String.singleton sep) segs

/-- Resolve "." and ".." segments the way `path.normalize` does for
relative paths: "." is dropped, ".." pops the previous real segment and is
kept when there is nothing left to pop. -/
def normSegs (segs : List String) : List String :=
  segs.foldl
    (fun acc seg =>
      if seg = "." then acc
      else if seg = ".." then
        match acc.getLast? with
        | none => [".."]
        | some lastSeg => if lastSeg = ".." then acc ++ [".."] else acc.dropLast
      else acc ++ [seg]) []

/-- Whether the path ends in a separator character of the host platform
(`path.normalize` re-appends a single separator in that case). -/
def hasTrailingSep (sep : Char) (p : String) : Bool :=
  match p.data.getLast? with
  | some c => decide (c ∈ seps sep)
  | none => false

/-- `path.normalize` for relative paths (all paths handled by the parser are
project-relative): resolve "." and ".." segments, render with the host
separator, "." when nothing remains, and keep one trailing separator when
the input ended in one. -/
def normalizeStr (sep : Char) (p : String) : String :=
  let segs := normSegs (splitSegs sep p)
  let core := if segs.isEmpty then "." else renderPath sep segs
  if hasTrailingSep sep p then core ++ String.singleton sep else core

/-- `path.dirname` for relative paths. -/
def dirnameStr (sep : Char) (p : String) : String :=
  match (splitSegs sep p).dropLast with
  | [] => "."
  | ds => renderPath sep ds

/-- `path.join` of two relative paths: concatenate with a separator and
normalize. -/
def joinStr (sep : Char) (a b : String) : String :=
  normalizeStr sep (a ++ String.singleton sep ++ b)

/-- Position of the last '.' in a character list, if any. -/
def lastDotPos : List Char → Option Nat
  | [] => none
  | c :: cs =>
    match lastDotPos cs with
    | some i => some (i + 1)
    | none => if c = '.' then some 0 else none

/-- `path.extname`: trailing separators are ignored, then the extension is
the part of the last path component from its last '.' to the end; empty
when there is no dot, when the dot is the component's first character
(dotfiles such as `.bashrc`), or when the component is exactly `..`. -/
def extnameOf (sep : Char) (p : String) : String :=
  let trimmed := (p.data.reverse.dropWhile (fun c => c ∈ seps sep)).reverse
  let base := (splitOnPred (fun c => c ∈ seps sep) trimmed).getLastD []
  if base = ['.', '.'] then ""
  else
    match lastDotPos base with
    | none => ""
    | some 0 => ""
    | some i => String.mk (base.drop i)

/-! ## Dependency-map construction (`parseDependencies` in parser.ts) -/

/-- `DependencyMap` from parser.ts: a `Map<string, string[]>`, modelled as
an insertion-ordered association list. -/
abbrev DependencyMap := List (String × List String)

/-- `Map.prototype.get`. -/
def mapGet (m : DependencyMap) (k : String) : Option (List String) :=
  (m.find? (fun p => p.1 == k)).map (fun p => p.2)

/-- `Map.prototype.set`: update in place when the key exists, append
otherwise. -/
def mapSet (m : DependencyMap) (k : String) (v : List String) : DependencyMap :=
  if (m.find? (fun p => p.1 == k)).isSome then
    m.map (fun p => if p.1 == k then (k, v) else p)
  else m ++ [(k, v)]

/-- The recognized source extensions of parser.ts line 95. -/
def recognizedExtensions : List String := [".ts", ".tsx", ".js", ".jsx"]

/-- One iteration of the `while ((match = importRegex.exec(content)))` loop
body in `parseDependencies` (parser.ts lines 89-108): `none` when the edge
is skipped (`continue`), `some dep` when `dep` is pushed. -/
def resolveDependency (sep : Char) (relativeFilePath importPath : String) :
    Option String :=
  let fileExtension := extnameOf sep importPath
  if fileExtension ≠ "" then
    if fileExtension ∈ recognizedExtensions then
      some (normalizeStr sep (joinStr sep (dirnameStr sep relativeFilePath) importPath))
    else none
  else
    some (normalizeStr sep
      (joinStr sep (dirnameStr sep relativeFilePath) (importPath ++ ".ts")))

/-- The full `dependencies` array produced for one file from its list of
regex-matched raw import targets. -/
def parseFileDependencies (sep : Char) (relativeFilePath : String)
    (importPaths : List String) : List String :=
  importPaths.foldl
    (fun deps importPath =>
      match resolveDependency sep relativeFilePath importPath with
      | some dependencyName => deps ++ [dependencyName]
      | none => deps) []

/-- `relativeFilePath.replace(/\\/g, '/')` (parser.ts line 111). -/
def replaceBackslashes (s : String) : String :=
  String.mk (s.data.map (fun c => if c = '\\' then '/' else c))

/-- The per-file loop of `parseDependencies`: each input pairs a file's
`path.relative` identifier with `some` list of regex-matched raw import
targets, or `none` when `fs.readFile` failed (the file is skipped). -/
def parseDependenciesModel (sep : Char)
    (files : List (String × Option (List String))) : DependencyMap :=
  files.foldl
    (fun dependencyMap file =>
      match file.2 with
      | some importPaths =>
        mapSet dependencyMap (replaceBackslashes file.1)
          (parseFileDependencies sep file.1 importPaths)
      | none => dependencyMap) []

/-! ## Heuristic analyzer (`src/analyzers/heuristicAnalyzer.ts`) -/

/-- JavaScript `Set.prototype.add` on a duplicate-free insertion-ordered
list. -/
def setAdd (l : List String) (x : String) : List String :=
  if x ∈ l then l else l ++ [x]

/-- The edge list of a node: `dependencyMap.get(node) || []`. -/
def depsOf (g : DependencyMap) (node : String) : List String :=
  (mapGet g node).getD []

/-- The `allNodes` set of `findCircularDependencies`: the keys of the map
followed by every edge target, in insertion order. -/
def allNodesOf (g : DependencyMap) : List String :=
  g.foldl (fun acc p => p.2.foldl setAdd acc)
    ((g.map (fun p => p.1)).foldl setAdd [])

/-- The mutable closure state of `findCircularDependencies`: the `cycles`
accumulator (each record's `path` field represented by the list itself),
the `visited` set and the `recursionStack` set. -/
structure DfsState where
  cycles : List (List String)
  visited : List String
  recursionStack : List String

/-- The `for (const dependency of dependencies)` loop of `detectCycle`
(heuristicAnalyzer.ts lines 310-320), parametrized by the recursive call
`detect`.  A dependency on the recursion stack records the cycle
`[...path.slice(path.indexOf(dependency)), dependency]`; an unvisited
dependency is explored recursively; a visited off-stack dependency is
skipped. -/
def goDeps (g : DependencyMap) (detect : String → List String → DfsState → DfsState) :
    List String → List String → DfsState → DfsState
  | [], _, s => s
  | dependency :: rest, path, s =>
    if dependency ∈ s.recursionStack then
      goDeps g detect rest path
        { s with cycles :=
            s.cycles ++ [path.drop (path.indexOf dependency) ++ [dependency]] }
    else if dependency ∉ s.visited then
      goDeps g detect rest path (detect dependency path s)
    else
      goDeps g detect rest path s

/-- `detectCycle(node, path)` of heuristicAnalyzer.ts: mark the node
visited and on-stack, push it on the path, walk its dependency list, then
backtrack.  The `fuel` argument only bounds the recursion depth; the
source recursion is guarded by the `visited` set, so any fuel exceeding
the number of graph nodes is never exhausted. -/
def detectCycle (g : DependencyMap) : Nat → String → List String → DfsState → DfsState
  | 0, _, _, s => s
  | fuel + 1, node, path, s =>
    let s1 : DfsState :=
      { s with visited := setAdd s.visited node,
               recursionStack := setAdd s.recursionStack node }
    let s2 := goDeps g (detectCycle g fuel) (depsOf g node) (path ++ [node]) s1
    { s2 with recursionStack := s2.recursionStack.erase node }

/-- `findCircularDependencies`: run `detectCycle` from every still-unvisited
node of the full node set. -/
def findCircularDependencies (g : DependencyMap) : List (List String) :=
  let allNodes := allNodesOf g
  (allNodes.foldl
    (fun s node => if node ∉ s.visited then detectCycle g (allNodes.length + 1) node [] s else s)
    ⟨[], [], []⟩).cycles

/-- The first loop of `findTightlyCoupledModules`: the reverse adjacency
`incomingMap`, built by iterating every edge of the map once. -/
def buildIncomingMap (g : DependencyMap) : List (String × List String) :=
  g.foldl
    (fun incomingMap p =>
      p.2.foldl
        (fun m importedModule =>
          mapSet m importedModule (((mapGet m importedModule).getD []) ++ [p.1]))
        incomingMap) []

/-- Stable insertion step for sorting descending by importer count: the
new element goes after every already-placed element with at least as many
importers, matching the comparator
`(a, b) => b.importedBy.length - a.importedBy.length` under JavaScript's
stable `Array.prototype.sort`. -/
def insertByCountDesc (x : String × List String) :
    List (String × List String) → List (String × List String)
  | [] => [x]
  | y :: ys =>
    if y.2.length < x.2.length then x :: y :: ys else y :: insertByCountDesc x ys

/-- Stable sort descending by importer count: elements are inserted in
their original left-to-right order, so records with equal importer counts
keep that order. -/
def sortByCountDesc (l : List (String × List String)) :
    List (String × List String) :=
  l.foldl (fun sorted x => insertByCountDesc x sorted) []

/-- `findTightlyCoupledModules`: keep the entries of the reverse adjacency
whose importer list reaches the threshold, sorted descending by importer
count (JavaScript `Array.prototype.sort` is stable).  Each hub record
`{module, importedBy}` is represented as a pair. -/
def findTightlyCoupledModules (g : DependencyMap) (threshold : Nat) :
    List (String × List String) :=
  sortByCountDesc ((buildIncomingMap g).filter (fun p => threshold ≤ p.2.length))

/-- `HUB_THRESHOLD` of heuristicAnalyzer.ts. -/
def HUB_THRESHOLD : Nat := 3

/-- `HeuristicAnalysisResult` of heuristicAnalyzer.ts. -/
structure HeuristicAnalysisResult where
  circularDependencies : List (List String)
  tightlyCoupledModules : List (String × List String)
deriving DecidableEq

/-- `analyzeHeuristically`. -/
def analyzeHeuristically (dependencyMap : DependencyMap) : HeuristicAnalysisResult :=
  ⟨findCircularDependencies dependencyMap,
   findTightlyCoupledModules dependencyMap HUB_THRESHOLD⟩

/-! ## Walks in the dependency graph -/

/-- A walk: consecutive elements are joined by graph edges. -/
def IsWalk (g : DependencyMap) (l : List String) : Prop :=
  List.Chain' (fun a b => b ∈ depsOf g a) l

/-- Executable walk check. -/
def walkB (g : DependencyMap) : List String → Bool
  | [] => true
  | [_] => true
  | a :: b :: rest => decide (b ∈ depsOf g a) && walkB g (b :: rest)

theorem isWalk_iff_walkB (g : DependencyMap) :
    ∀ l : List String, IsWalk g l ↔ walkB g l = true
  | [] => by simp [IsWalk, walkB]
  | [a] => by simp [IsWalk, walkB]
  | a :: b :: rest => by
    rw [IsWalk, List.chain'_cons, walkB, Bool.and_eq_true, decide_eq_true_iff]
    exact and_congr Iff.rfl (isWalk_iff_walkB g (b :: rest))

instance (g : DependencyMap) (l : List String) : Decidable (IsWalk g l) :=
  decidable_of_iff _ (isWalk_iff_walkB g l).symm

/-- A closed walk: at least two entries, a walk, and the first entry equals
the last. -/
def IsClosedWalk (g : DependencyMap) (l : List String) : Prop :=
  2 ≤ l.length ∧ IsWalk g l ∧ l.head? = l.getLast?

instance (g : DependencyMap) (l : List String) : Decidable (IsClosedWalk g l) :=
  decidable_of_iff (2 ≤ l.length ∧ IsWalk g l ∧ l.head? = l.getLast?) Iff.rfl

/-! ## Orchestrator (`src/core/server.ts`) -/

/-- One entry of `AnalysisResult.circularDependencies` (llmAnalyzer.ts). -/
structure LlmCycleFinding where
  path : List String
  reason : String
deriving DecidableEq

/-- One entry of `AnalysisResult.tightlyCoupledModules` (llmAnalyzer.ts). -/
structure LlmHubFinding where
  module : String
  importedBy : List String
  recommendation : String
deriving DecidableEq

/-- `AnalysisResult` of llmAnalyzer.ts: the parsed LLM response shape. -/
structure AnalysisResult where
  circularDependencies : List LlmCycleFinding
  tightlyCoupledModules : List LlmHubFinding
  refactoringRecommendations : List String
deriving DecidableEq

/-- `FullAnalysisReport` of server.ts. -/
structure FullAnalysisReport where
  timestamp : String
  llmAnalysis : AnalysisResult
  heuristicAnalysis : HeuristicAnalysisResult
deriving DecidableEq

/-- A JavaScript value caught by a `catch` clause, as far as
`getErrorMessage` distinguishes it. -/
inductive ThrownValue
  | errorObj (message : String)
  | stringVal (s : String)
  | otherVal
deriving DecidableEq

/-- `getErrorMessage` of server.ts. -/
def getErrorMessage : ThrownValue → String
  | .errorObj message => message
  | .stringVal s => s
  | .otherVal => "An unknown error occurred."

/-- Message of the `throw` at server.ts line 125. -/
def parserEmptyMsg : String := "Parser found no files or dependencies."

/-- Message of the `throw` at server.ts line 134. -/
def llmFailedMsg : String := "LLM analysis failed."

/-- The `try` body of `runFullAnalysis` after `parseDependencies` resolved
(server.ts lines 124-145): reject on an empty map, reject when the LLM
analyzer returned `null`, otherwise assemble the report. -/
def runAnalysisCore (dependencyMap : DependencyMap)
    (llmResult : Option AnalysisResult) (timestamp : String) :
    Except String FullAnalysisReport :=
  if dependencyMap.length = 0 then .error parserEmptyMsg
  else
    match llmResult with
    | none => .error llmFailedMsg
    | some llm => .ok ⟨timestamp, llm, analyzeHeuristically dependencyMap⟩

/-- The environment one run executes against: the outcome of
`parseDependencies()` (which may itself reject), the outcome of
`analyzeWithLlm` (which resolves `null` on every failure), and the
timestamp taken at report construction. -/
structure RunEnv where
  parseResult : Except ThrownValue DependencyMap
  llmResult : Option AnalysisResult
  timestamp : String

/-- The settled outcome of one executed pipeline: the `catch` clause
rethrows `new Error(getErrorMessage(error))`, so rejections carry the
message string. -/
def runOutcome (env : RunEnv) : Except String FullAnalysisReport :=
  match env.parseResult with
  | .error e => .error (getErrorMessage e)
  | .ok dependencyMap =>
    match runAnalysisCore dependencyMap env.llmResult env.timestamp with
    | .ok report => .ok report
    | .error m => .error (getErrorMessage (.errorObj m))

/-- The observable status of one `runFullAnalysis()` call. -/
inductive CallStatus
  | pending
  | running
  | waiting
  | resolved (r : FullAnalysisReport)
  | rejected (e : String)
deriving DecidableEq

/-- The process-wide state of server.ts: the two module-level mutable
variables, the status of every call (by caller-chosen id), and a counter
of started analysis pipelines (`parseDependencies` invocations). -/
structure SysState where
  cachedAnalysis : Option FullAnalysisReport
  isAnalysisRunning : Bool
  calls : Nat → CallStatus
  pipelineCount : Nat

/-- Point update of the call table. -/
def setCall (f : Nat → CallStatus) (id : Nat) (st : CallStatus) : Nat → CallStatus :=
  fun n => if n = id then st else f n

/-- The atomic events of the event loop.  `start id` is the synchronous
head of a `runFullAnalysis()` call: either it observes
`isAnalysisRunning`, creates the polling promise and becomes a waiter, or
it sets the flag and starts the pipeline.  `finish id env` is the runner's
continuation after its awaits settle: on success it stores the report in
`cachedAnalysis`, on failure it leaves the cache alone and rethrows; the
`finally` clause clears the flag in both cases.  `poll id` is one firing
of a waiter's `setInterval` callback: it resolves the cached report iff
`!isAnalysisRunning && cachedAnalysis`. -/
inductive Event
  | start (id : Nat)
  | finish (id : Nat) (env : RunEnv)
  | poll (id : Nat)

/-- One atomic step of the orchestrator. -/
def step (s : SysState) : Event → SysState
  | .start id =>
    if s.isAnalysisRunning then
      { s with calls := setCall s.calls id .waiting }
    else
      { s with isAnalysisRunning := true,
               calls := setCall s.calls id .running,
               pipelineCount := s.pipelineCount + 1 }
  | .finish id env =>
    match s.calls id with
    | .running =>
      match runOutcome env with
      | .ok report =>
        { s with cachedAnalysis := some report,
                 isAnalysisRunning := false,
                 calls := setCall s.calls id (.resolved report) }
      | .error e =>
        { s with isAnalysisRunning := false,
                 calls := setCall s.calls id (.rejected e) }
    | _ => s
  | .poll id =>
    match s.calls id with
    | .waiting =>
      match s.cachedAnalysis, s.isAnalysisRunning with
      | some report, false =>
        { s with calls := setCall s.calls id (.resolved report) }
      | _, _ => s
    | _ => s

/-- Run a list of events. -/
def execTrace (s : SysState) (tr : List Event) : SysState :=
  tr.foldl step s

/-- Responses of `GET /api/analysis` (server.ts lines 174-200), up to the
JSON payload shape. -/
inductive RouteResponse
  | successData (r : FullAnalysisReport)
  | pending503
  | triggersRun
deriving DecidableEq

/-- The `GET /api/analysis` handler: return the cache when present;
otherwise report 503 while a run is in flight, or trigger a run on
demand. -/
def getAnalysisRoute (s : SysState) : RouteResponse :=
  match s.cachedAnalysis with
  | some r => .successData r
  | none => if s.isAnalysisRunning then .pending503 else .triggersRun

/-! ## Helper lemmas -/

theorem insertByCountDesc_perm (x : String × List String) :
    ∀ l : List (String × List String), (insertByCountDesc x l).Perm (x :: l)
  | [] => List.Perm.refl _
  | y :: ys => by
    rw [insertByCountDesc]
    by_cases h : y.2.length < x.2.length
    · rw [if_pos h]
    · rw [if_neg h]
      exact ((insertByCountDesc_perm x ys).cons y).trans (List.Perm.swap x y ys)

theorem foldl_insertByCountDesc_perm :
    ∀ (l acc : List (String × List String)),
      (l.foldl (fun sorted x => insertByCountDesc x sorted) acc).Perm (acc ++ l)
  | [], acc => by rw [List.foldl_nil, List.append_nil]
  | x :: xs, acc => by
    rw [List.foldl_cons]
    refine (foldl_insertByCountDesc_perm xs (insertByCountDesc x acc)).trans ?_
    exact ((insertByCountDesc_perm x acc).append_right xs).trans List.perm_middle.symm

theorem sortByCountDesc_perm (l : List (String × List String)) :
    (sortByCountDesc l).Perm l :=
  foldl_insertByCountDesc_perm l []

theorem mem_sortByCountDesc (x : String × List String)
    (l : List (String × List String)) : x ∈ sortByCountDesc l ↔ x ∈ l :=
  (sortByCountDesc_perm l).mem_iff

theorem resolveDependency_recognized (sep : Char) (importer target : String)
    (h : extnameOf sep target ∈ recognizedExtensions) :
    resolveDependency sep importer target =
      some (normalizeStr sep (joinStr sep (dirnameStr sep importer) target)) := by
  have hne : extnameOf sep target ≠ "" := by
    intro h0
    rw [h0] at h
    simp [recognizedExtensions] at h
  simp only [resolveDependency]
  rw [if_pos hne, if_pos h]

theorem resolveDependency_unrecognized (sep : Char) (importer target : String)
    (hne : extnameOf sep target ≠ "")
    (hnr : extnameOf sep target ∉ recognizedExtensions) :
    resolveDependency sep importer target = none := by
  simp only [resolveDependency]
  rw [if_pos hne, if_neg hnr]

theorem resolveDependency_noExt (sep : Char) (importer target : String)
    (h : extnameOf sep target = "") :
    resolveDependency sep importer target =
      some (normalizeStr sep (joinStr sep (dirnameStr sep importer) (target ++ ".ts"))) := by
  simp only [resolveDependency]
  rw [if_neg (not_not_intro h)]

theorem parseFileDependencies_skip (sep : Char) (importer target : String)
    (h : resolveDependency sep importer target = none) (pre post : List String) :
    parseFileDependencies sep importer (pre ++ target :: post) =
      parseFileDependencies sep importer (pre ++ post) := by
  simp only [parseFileDependencies, List.foldl_append, List.foldl_cons, h]

/-- **C3**: during the DFS, an edge to a node on the recursion stack emits
exactly one cycle record — the suffix of the current open path from that
node's first occurrence, with the node appended again — and the traversal
goes on with the remaining edges; records are not deduplicated, as the
duplicate-edge graph `{A→[B], B→[A,A]}` shows: its two back edges yield
two identical records. -/
theorem claim_C3_back_edge_records :
    (∀ (g : DependencyMap) (detect : String → List String → DfsState → DfsState)
       (dependency : String) (rest path : List String) (s : DfsState),
       dependency ∈ s.recursionStack →
       goDeps g detect (dependency :: rest) path s =
         goDeps g detect rest path
           { s with cycles :=
               s.cycles ++ [path.drop (path.indexOf dependency) ++ [dependency]] }) ∧
    findCircularDependencies [("A", ["B"]), ("B", ["A", "A"])] =
      [["A", "B", "A"], ["A", "B", "A"]] := by
  constructor
  · intro g detect dependency rest path s h
    simp only [goDeps]
    rw [if_pos h]
  · decide

/-- Witness for C3: the back edge `B → A` of `{A→[B], B→[A,A]}`, taken in
the DFS state reached along the path `[A, B]`, emits the single record
`[A, B, A]`. -/
theorem claim_C3_back_edge_records_witness :
    ("A" ∈ (DfsState.mk [] ["A", "B"] ["A", "B"]).recursionStack) ∧
    goDeps [("A", ["B"]), ("B", ["A", "A"])]
        (detectCycle [("A", ["B"]), ("B", ["A", "A"])] 0)
        ["A"] ["A", "B"] (DfsState.mk [] ["A", "B"] ["A", "B"]) =
      goDeps [("A", ["B"]), ("B", ["A", "A"])]
        (detectCycle [("A", ["B"]), ("B", ["A", "A"])] 0)
        [] ["A", "B"] (DfsState.mk [["A", "B", "A"]] ["A", "B"] ["A", "B"]) :=
  ⟨by decide,
   claim_C3_back_edge_records.1 _ _ "A" [] ["A", "B"]
     (DfsState.mk [] ["A", "B"] ["A", "B"]) (by decide)⟩

theorem mem_findTightlyCoupledModules (g : DependencyMap) (threshold : Nat)
    (hub : String × List String) :
    hub ∈ findTightlyCoupledModules g threshold ↔
      hub ∈ buildIncomingMap g ∧ threshold ≤ hub.2.length := by
  rw [findTightlyCoupledModules, mem_sortByCountDesc, List.mem_filter,
    decide_eq_true_iff]

/-- **C4**: on `{A→B, A→C, D→B, E→B}` the hub detector returns exactly the
record for `B` with importers `[A, D, E]` at threshold 3 and nothing at
threshold 4; in general a record is returned exactly for the reverse-map
entries whose importer list reaches the threshold. -/
theorem claim_C4_hub_detector :
    findTightlyCoupledModules [("A", ["B", "C"]), ("D", ["B"]), ("E", ["B"])] 3 =
      [("B", ["A", "D", "E"])] ∧
    findTightlyCoupledModules [("A", ["B", "C"]), ("D", ["B"]), ("E", ["B"])] 4 = [] ∧
    ∀ (g : DependencyMap) (threshold : Nat) (hub : String × List String),
      hub ∈ findTightlyCoupledModules g threshold ↔
        hub ∈ buildIncomingMap g ∧ threshold ≤ hub.2.length :=
  ⟨by decide, by decide, mem_findTightlyCoupledModules⟩

/-- **C5**: a target with a recognized source extension is resolved as-is;
a target with any other extension contributes no edge at all; an
extensionless target gets the default extension `.ts` appended before
resolution. -/
theorem claim_C5_extension_rules (sep : Char) (importer target : String) :
    (extnameOf sep target ∈ recognizedExtensions →
      parseFileDependencies sep importer [target] =
        [normalizeStr sep (joinStr sep (dirnameStr sep importer) target)]) ∧
    (extnameOf sep target ≠ "" → extnameOf sep target ∉ recognizedExtensions →
      ∀ pre post : List String,
        parseFileDependencies sep importer (pre ++ target :: post) =
          parseFileDependencies sep importer (pre ++ post)) ∧
    (extnameOf sep target = "" →
      parseFileDependencies sep importer [target] =
        [normalizeStr sep (joinStr sep (dirnameStr sep importer) (target ++ ".ts"))]) := by
  refine ⟨fun h => ?_, fun hne hnr pre post => ?_, fun h => ?_⟩
  · simp only [parseFileDependencies, List.foldl_cons, List.foldl_nil,
      resolveDependency_recognized sep importer target h, List.nil_append]
  · exact parseFileDependencies_skip sep importer target
      (resolveDependency_unrecognized sep importer target hne hnr) pre post
  · simp only [parseFileDependencies, List.foldl_cons, List.foldl_nil,
      resolveDependency_noExt sep importer target h, List.nil_append]

/-- Witness for C5: `./utils` imported from `src/core/parser` resolves to
`src/core/utils.ts`; `./styles.css` contributes no edge; `./a.ts` is
resolved as-is; the trailing-separator target `./b.ts/` still has the
recognized extension `.ts` and is resolved as-is (keeping the trailing
separator, as `path.normalize` does); `./..` has no extension (the Node
`..` special case) and gets `.ts` appended. -/
theorem claim_C5_extension_rules_witness :
    (extnameOf '/' "./utils" = "" ∧
      parseFileDependencies '/' "src/core/parser" ["./utils"] =
        [normalizeStr '/' (joinStr '/' (dirnameStr '/' "src/core/parser")
          ("./utils" ++ ".ts"))]) ∧
    (extnameOf '/' "./styles.css" ≠ "" ∧
      extnameOf '/' "./styles.css" ∉ recognizedExtensions ∧
      parseFileDependencies '/' "src/core/parser"
          (["./utils"] ++ "./styles.css" :: ["./a.ts"]) =
        parseFileDependencies '/' "src/core/parser" (["./utils"] ++ ["./a.ts"])) ∧
    (extnameOf '/' "./a.ts" ∈ recognizedExtensions ∧
      parseFileDependencies '/' "src/core/parser" ["./a.ts"] =
        [normalizeStr '/' (joinStr '/' (dirnameStr '/' "src/core/parser") "./a.ts")]) ∧
    (extnameOf '/' "./b.ts/" ∈ recognizedExtensions ∧
      parseFileDependencies '/' "src/core/parser" ["./b.ts/"] = ["src/core/b.ts/"]) ∧
    (extnameOf '/' "./.." = "" ∧
      parseFileDependencies '/' "src/core/parser" ["./.."] = ["src/core/...ts"]) :=
  ⟨⟨by decide, (claim_C5_extension_rules '/' "src/core/parser" "./utils").2.2 (by decide)⟩,
   ⟨by decide, by decide,
    (claim_C5_extension_rules '/' "src/core/parser" "./styles.css").2.1
      (by decide) (by decide) ["./utils"] ["./a.ts"]⟩,
   ⟨by decide, (claim_C5_extension_rules '/' "src/core/parser" "./a.ts").1 (by decide)⟩,
   ⟨by decide,
    ((claim_C5_extension_rules '/' "src/core/parser" "./b.ts/").1 (by decide)).trans
      (by decide)⟩,
   ⟨by decide,
    ((claim_C5_extension_rules '/' "src/core/parser" "./..").2.2 (by decide)).trans
      (by decide)⟩⟩

theorem replaceBackslashes_no_backslash (s : String) :
    '\\' ∉ (replaceBackslashes s).data := by
  intro hmem
  have h : '\\' ∈ s.data.map (fun c => if c = '\\' then '/' else c) := hmem
  rcases List.mem_map.mp h with ⟨a, _, ha⟩
  by_cases hb : a = '\\'
  · rw [if_pos hb] at ha
    exact absurd ha (by decide)
  · rw [if_neg hb] at ha
    exact hb ha

theorem mapSet_key_mem (m : DependencyMap) (k : String) (v : List String)
    (x : String × List String) (hx : x ∈ mapSet m k v) :
    x.1 = k ∨ ∃ y ∈ m, x.1 = y.1 := by
  rw [mapSet] at hx
  by_cases h : (m.find? (fun p => p.1 == k)).isSome
  · rw [if_pos h] at hx
    rcases List.mem_map.mp hx with ⟨y, hy, hxy⟩
    by_cases hk : (y.1 == k) = true
    · rw [if_pos hk] at hxy
      left
      rw [← hxy]
    · rw [if_neg hk] at hxy
      right
      exact ⟨y, hy, by rw [← hxy]⟩
  · rw [if_neg h] at hx
    rcases List.mem_append.mp hx with hx | hx
    · right
      exact ⟨x, hx, rfl⟩
    · left
      rw [List.mem_singleton.mp hx]

theorem parseDependenciesModel_keys_aux (sep : Char) :
    ∀ (files : List (String × Option (List String))) (m : DependencyMap),
      (∀ y ∈ m, '\\' ∉ y.1.data) →
      ∀ x ∈ files.foldl
          (fun dependencyMap file =>
            match file.2 with
            | some importPaths =>
              mapSet dependencyMap (replaceBackslashes file.1)
                (parseFileDependencies sep file.1 importPaths)
            | none => dependencyMap) m,
        '\\' ∉ x.1.data
  | [], _, hm, x, hx => hm x hx
  | f :: fs, m, hm, x, hx => by
    rw [List.foldl_cons] at hx
    rcases f with ⟨fname, fcontent⟩
    cases fcontent with
    | none => exact parseDependenciesModel_keys_aux sep fs m hm x hx
    | some importPaths =>
      refine parseDependenciesModel_keys_aux sep fs _ ?_ x hx
      intro y hy
      rcases mapSet_key_mem _ _ _ y hy with h | ⟨z, hz, hyz⟩
      · rw [h]
        exact replaceBackslashes_no_backslash fname
      · rw [hyz]
        exact hm z hz

/-- **C6 (counterexample)**: on the backslash-separator platform, the map
key of `src\core\a.ts` is re-expressed with forward slashes, but the edge
target it resolves for `./b` keeps the host backslashes — so not every
edge target is expressed with forward slashes regardless of platform. -/
theorem claim_C6_counterexample :
    parseDependenciesModel '\\' [("src\\core\\a.ts", some ["./b"])] =
      [("src/core/a.ts", ["src\\core\\b.ts"])] ∧
    '\\' ∈ "src\\core\\b.ts".data :=
  ⟨by decide, by decide⟩

/-- **C6 (amended)**: only the map keys are unconditionally re-expressed
with forward slashes; edge targets are rendered with the host separator
(so they are forward-slashed on a forward-slash host, as in the posix
example, but keep backslashes on a backslash host). -/
theorem claim_C6_amended_separators :
    (∀ (sep : Char) (files : List (String × Option (List String)))
       (x : String × List String),
       x ∈ parseDependenciesModel sep files → '\\' ∉ x.1.data) ∧
    parseDependenciesModel '/' [("src/core/a.ts", some ["./b"])] =
      [("src/core/a.ts", ["src/core/b.ts"])] := by
  constructor
  · intro sep files x hx
    exact parseDependenciesModel_keys_aux sep files []
      (fun y hy => absurd hy (List.not_mem_nil y)) x hx
  · decide

/-- Witness for the amended C6: the key produced on the backslash platform
for `src\core\a.ts` carries no backslash. -/
theorem claim_C6_amended_separators_witness :
    (("src/core/a.ts", ["src\\core\\b.ts"]) ∈
      parseDependenciesModel '\\' [("src\\core\\a.ts", some ["./b"])]) ∧
    '\\' ∉ ("src/core/a.ts", ["src\\core\\b.ts"]).1.data :=
  ⟨by decide,
   claim_C6_amended_separators.1 '\\' [("src\\core\\a.ts", some ["./b"])]
     ("src/core/a.ts", ["src\\core\\b.ts"]) (by decide)⟩

theorem setCall_same (f : Nat → CallStatus) (id : Nat) (st : CallStatus) :
    setCall f id st id = st := by
  simp [setCall]

theorem setCall_other (f : Nat → CallStatus) (id : Nat) (st : CallStatus)
    (n : Nat) (h : n ≠ id) : setCall f id st n = f n := by
  simp [setCall, h]

theorem step_poll_of_running (s : SysState) (p : Nat)
    (h : s.isAnalysisRunning = true) : step s (.poll p) = s := by
  cases hc : s.calls p
  case waiting =>
    cases hca : s.cachedAnalysis <;> simp [step, hc, hca, h]
  all_goals simp [step, hc]

theorem step_poll_of_noCache (s : SysState) (p : Nat)
    (h : s.cachedAnalysis = none) : step s (.poll p) = s := by
  cases hc : s.calls p
  case waiting => simp [step, hc, h]
  all_goals simp [step, hc]

theorem execTrace_polls_of_running :
    ∀ (ps : List Nat) (s : SysState), s.isAnalysisRunning = true →
      execTrace s (ps.map Event.poll) = s
  | [], _, _ => rfl
  | p :: ps, s, h => by
    rw [List.map_cons, execTrace, List.foldl_cons, step_poll_of_running s p h]
    exact execTrace_polls_of_running ps s h

theorem execTrace_polls_of_noCache :
    ∀ (ps : List Nat) (s : SysState), s.cachedAnalysis = none →
      execTrace s (ps.map Event.poll) = s
  | [], _, _ => rfl
  | p :: ps, s, h => by
    rw [List.map_cons, execTrace, List.foldl_cons, step_poll_of_noCache s p h]
    exact execTrace_polls_of_noCache ps s h

/-- **C1**: when a run fails (graph build failure or external-analyzer
failure), `runFullAnalysis` rejects with the descriptive error message,
the previously cached report (if any) is left exactly as it was, and it
remains retrievable via `GET /api/analysis`. -/
theorem claim_C1_failed_run_preserves_cache (s : SysState) (env : RunEnv) (e : String)
    (hidle : s.isAnalysisRunning = false)
    (hfail : runOutcome env = .error e) :
    (execTrace s [.start 1, .finish 1 env]).calls 1 = .rejected e ∧
    (execTrace s [.start 1, .finish 1 env]).cachedAnalysis = s.cachedAnalysis ∧
    ∀ r₀ : FullAnalysisReport, s.cachedAnalysis = some r₀ →
      getAnalysisRoute (execTrace s [.start 1, .finish 1 env]) = .successData r₀ := by
  have h1 : step s (.start 1) =
      { s with isAnalysisRunning := true,
               calls := setCall s.calls 1 .running,
               pipelineCount := s.pipelineCount + 1 } := by
    simp [step, hidle]
  have h2 : execTrace s [.start 1, .finish 1 env] =
      { s with isAnalysisRunning := false,
               calls := setCall (setCall s.calls 1 .running) 1 (.rejected e),
               pipelineCount := s.pipelineCount + 1 } := by
    rw [execTrace, List.foldl_cons, List.foldl_cons, List.foldl_nil, h1]
    simp [step, setCall_same, hfail]
  refine ⟨?_, ?_, ?_⟩
  · rw [h2]
    simp [setCall]
  · rw [h2]
  · intro r₀ hr₀
    rw [h2]
    simp [getAnalysisRoute, hr₀]

/-- **C8**: an empty dependency graph makes the run fail with the
distinguishable message "Parser found no files or dependencies." surfaced
to the caller as a rejection, never an `ok` report, and the cache is not
populated by the failed run. -/
theorem claim_C8_empty_graph_error (s : SysState)
    (llm : Option AnalysisResult) (ts : String)
    (hidle : s.isAnalysisRunning = false) :
    runAnalysisCore [] llm ts = .error parserEmptyMsg ∧
    (∀ r : FullAnalysisReport, runAnalysisCore [] llm ts ≠ .ok r) ∧
    (execTrace s [.start 1, .finish 1 ⟨.ok [], llm, ts⟩]).calls 1 =
      .rejected parserEmptyMsg ∧
    (execTrace s [.start 1, .finish 1 ⟨.ok [], llm, ts⟩]).cachedAnalysis =
      s.cachedAnalysis := by
  have hcore : runAnalysisCore [] llm ts = .error parserEmptyMsg := rfl
  have hout : runOutcome ⟨.ok [], llm, ts⟩ = .error parserEmptyMsg := rfl
  have h1 : step s (.start 1) =
      { s with isAnalysisRunning := true,
               calls := setCall s.calls 1 .running,
               pipelineCount := s.pipelineCount + 1 } := by
    simp [step, hidle]
  have h2 : execTrace s [.start 1, .finish 1 ⟨.ok [], llm, ts⟩] =
      { s with isAnalysisRunning := false,
               calls := setCall (setCall s.calls 1 .running) 1
                 (.rejected parserEmptyMsg),
               pipelineCount := s.pipelineCount + 1 } := by
    rw [execTrace, List.foldl_cons, List.foldl_cons, List.foldl_nil, h1]
    simp [step, setCall_same, hout]
  refine ⟨hcore, fun r h => by rw [hcore] at h; exact Except.noConfusion h, ?_, ?_⟩
  · rw [h2]
    simp [setCall]
  · rw [h2]

/-- **C2**: two get-or-compute calls arriving while a run is in flight
and no report is cached both become waiters, start no second pipeline
(the pipeline counter is unchanged), and once the single run completes
with report `r` both resolve with that same `r`. -/
theorem claim_C2_single_flight (s : SysState) (env : RunEnv)
    (r : FullAnalysisReport) (ps : List Nat)
    (hrun : s.isAnalysisRunning = true)
    (hnc : s.cachedAnalysis = none)
    (h0 : s.calls 0 = .running)
    (hok : runOutcome env = .ok r) :
    ((execTrace s ([.start 1, .start 2] ++ ps.map Event.poll ++
        [.finish 0 env, .poll 1, .poll 2])).calls 1 = .resolved r) ∧
    ((execTrace s ([.start 1, .start 2] ++ ps.map Event.poll ++
        [.finish 0 env, .poll 1, .poll 2])).calls 2 = .resolved r) ∧
    ((execTrace s ([.start 1, .start 2] ++ ps.map Event.poll ++
        [.finish 0 env, .poll 1, .poll 2])).calls 0 = .resolved r) ∧
    ((execTrace s ([.start 1, .start 2] ++ ps.map Event.poll ++
        [.finish 0 env, .poll 1, .poll 2])).pipelineCount = s.pipelineCount) := by
  have hA : execTrace s [.start 1, .start 2] =
      { s with calls := setCall (setCall s.calls 1 .waiting) 2 .waiting } := by
    rw [execTrace, List.foldl_cons, List.foldl_cons, List.foldl_nil]
    simp [step, hrun]
  have hB : execTrace s ([.start 1, .start 2] ++ ps.map Event.poll) =
      { s with calls := setCall (setCall s.calls 1 .waiting) 2 .waiting } := by
    rw [execTrace, List.foldl_append, ← execTrace, ← execTrace, hA]
    exact execTrace_polls_of_running ps _ hrun
  have hcalls0 : setCall (setCall s.calls 1 .waiting) 2 .waiting 0 = .running := by
    rw [setCall_other _ _ _ _ (by decide), setCall_other _ _ _ _ (by decide), h0]
  have hC : execTrace s ([.start 1, .start 2] ++ ps.map Event.poll ++ [.finish 0 env]) =
      { s with cachedAnalysis := some r,
               isAnalysisRunning := false,
               calls := setCall (setCall (setCall s.calls 1 .waiting) 2 .waiting) 0
                 (.resolved r) } := by
    rw [execTrace, List.foldl_append, ← execTrace, ← execTrace, hB]
    rw [execTrace, List.foldl_cons, List.foldl_nil]
    simp [step, hcalls0, hok]
  have hfin : execTrace s ([.start 1, .start 2] ++ ps.map Event.poll ++
      [.finish 0 env, .poll 1, .poll 2]) =
      execTrace (execTrace s ([.start 1, .start 2] ++ ps.map Event.poll ++ [.finish 0 env]))
        [.poll 1, .poll 2] := by
    rw [show ([Event.start 1, Event.start 2] ++ ps.map Event.poll ++
        [Event.finish 0 env, Event.poll 1, Event.poll 2]) =
        (([Event.start 1, Event.start 2] ++ ps.map Event.poll ++ [Event.finish 0 env]) ++
        [Event.poll 1, Event.poll 2]) by simp]
    rw [execTrace, List.foldl_append, ← execTrace, ← execTrace]
  rw [hfin, hC]
  have hc1 : setCall (setCall (setCall s.calls 1 .waiting) 2 .waiting) 0 (.resolved r) 1 =
      .waiting := by
    rw [setCall_other _ _ _ _ (by decide), setCall_other _ _ _ _ (by decide), setCall_same]
  have hc2 : setCall (setCall (setCall s.calls 1 .waiting) 2 .waiting) 0 (.resolved r) 2 =
      .waiting := by
    rw [setCall_other _ _ _ _ (by decide), setCall_same]
  refine ⟨?_, ?_, ?_, ?_⟩ <;>
    simp [execTrace, step, hc1, hc2, setCall]

theorem step_calls_waiting (s : SysState) (e : Event) (w : Nat)
    (hw : s.calls w = .waiting) (hne : e ≠ Event.start w) :
    (step s e).calls w = .waiting ∨
      ∃ v, (step s e).calls w = .resolved v ∧
        s.cachedAnalysis = some v ∧ s.isAnalysisRunning = false := by
  cases e with
  | start i =>
    have hwi : w ≠ i := fun h => hne (by rw [h])
    left
    by_cases hr : s.isAnalysisRunning = true <;>
      simp [step, hr, setCall, hwi, hw]
  | finish i env =>
    left
    by_cases hiw : i = w
    · subst hiw
      simp [step, hw]
    · have hwi : w ≠ i := Ne.symm hiw
      cases hci : s.calls i with
      | running =>
        cases ho : runOutcome env <;> simp [step, hci, ho, setCall, hwi, hw]
      | pending => simp [step, hci, hw]
      | waiting => simp [step, hci, hw]
      | resolved r' => simp [step, hci, hw]
      | rejected e' => simp [step, hci, hw]
  | poll i =>
    by_cases hiw : i = w
    · subst hiw
      cases hca : s.cachedAnalysis with
      | none => left; simp [step, hw, hca]
      | some v =>
        cases hr : s.isAnalysisRunning with
        | true => left; simp [step, hw, hca, hr]
        | false =>
          right
          exact ⟨v, by simp [step, hw, hca, hr, setCall], rfl, rfl⟩
    · have hwi : w ≠ i := Ne.symm hiw
      left
      cases hci : s.calls i with
      | waiting =>
        cases hca : s.cachedAnalysis with
        | none => simp [step, hci, hca, hw]
        | some v' =>
          cases hr : s.isAnalysisRunning <;>
            simp [step, hci, hca, hr, setCall, hwi, hw]
      | pending => simp [step, hci, hw]
      | running => simp [step, hci, hw]
      | resolved r' => simp [step, hci, hw]
      | rejected e' => simp [step, hci, hw]

theorem step_calls_resolved (s : SysState) (e : Event) (w : Nat)
    (v : FullAnalysisReport) (hw : s.calls w = .resolved v)
    (hne : e ≠ Event.start w) : (step s e).calls w = .resolved v := by
  cases e with
  | start i =>
    have hwi : w ≠ i := fun h => hne (by rw [h])
    by_cases hr : s.isAnalysisRunning = true <;>
      simp [step, hr, setCall, hwi, hw]
  | finish i env =>
    by_cases hiw : i = w
    · subst hiw
      simp [step, hw]
    · have hwi : w ≠ i := Ne.symm hiw
      cases hci : s.calls i with
      | running =>
        cases ho : runOutcome env <;> simp [step, hci, ho, setCall, hwi, hw]
      | pending => simp [step, hci, hw]
      | waiting =>
        cases hca : s.cachedAnalysis with
        | none => simp [step, hci, hca, hw]
        | some v' =>
          cases hr : s.isAnalysisRunning <;>
            simp [step, hci, hca, hr, setCall, hwi, hw]
      | resolved r' => simp [step, hci, hw]
      | rejected e' => simp [step, hci, hw]
  | poll i =>
    by_cases hiw : i = w
    · subst hiw
      simp [step, hw]
    · have hwi : w ≠ i := Ne.symm hiw
      cases hci : s.calls i with
      | waiting =>
        cases hca : s.cachedAnalysis with
        | none => simp [step, hci, hca, hw]
        | some v' =>
          cases hr : s.isAnalysisRunning <;>
            simp [step, hci, hca, hr, setCall, hwi, hw]
      | pending => simp [step, hci, hw]
      | running => simp [step, hci, hw]
      | resolved r' => simp [step, hci, hw]
      | rejected e' => simp [step, hci, hw]

theorem execTrace_calls_resolved :
    ∀ (tr : List Event) (s : SysState) (w : Nat) (v : FullAnalysisReport),
      s.calls w = .resolved v → (∀ e ∈ tr, e ≠ Event.start w) →
      (execTrace s tr).calls w = .resolved v
  | [], _, _, _, hw, _ => hw
  | e :: tr, s, w, v, hw, hne => by
    rw [execTrace, List.foldl_cons, ← execTrace]
    exact execTrace_calls_resolved tr (step s e) w v
      (step_calls_resolved s e w v hw (hne e (List.mem_cons_self e tr)))
      (fun e' he' => hne e' (List.mem_cons_of_mem e he'))

theorem execTrace_calls_waiting :
    ∀ (tr : List Event) (s : SysState) (w : Nat), s.calls w = .waiting →
      (∀ e ∈ tr, e ≠ Event.start w) →
      (execTrace s tr).calls w = .waiting ∨
        ∃ v, (execTrace s tr).calls w = .resolved v
  | [], _, _, hw, _ => Or.inl hw
  | e :: tr, s, w, hw, hne => by
    rw [execTrace, List.foldl_cons, ← execTrace]
    rcases step_calls_waiting s e w hw (hne e (List.mem_cons_self e tr)) with
      h | ⟨v, h, _, _⟩
    · exact execTrace_calls_waiting tr (step s e) w h
        (fun e' he' => hne e' (List.mem_cons_of_mem e he'))
    · right
      exact ⟨v, execTrace_calls_resolved tr (step s e) w v h
        (fun e' he' => hne e' (List.mem_cons_of_mem e he'))⟩

/-- **C9**: a `runFullAnalysis` call in the waiting branch never rejects
and can only resolve with a non-null cached report (the cache value at a
poll that sees the flag cleared); if the in-flight run fails with no
previous cache it stays waiting through every later poll, and if a
previous cache exists it resolves with that older report. -/
theorem claim_C9_waiting_branch :
    (∀ (s : SysState) (e : Event) (w : Nat),
       s.calls w = .waiting → e ≠ Event.start w →
       (step s e).calls w = .waiting ∨
         ∃ v, (step s e).calls w = .resolved v ∧
           s.cachedAnalysis = some v ∧ s.isAnalysisRunning = false) ∧
    (∀ (tr : List Event) (s : SysState) (w : Nat),
       s.calls w = .waiting → (∀ e ∈ tr, e ≠ Event.start w) →
       (execTrace s tr).calls w = .waiting ∨
         ∃ v, (execTrace s tr).calls w = .resolved v) ∧
    (∀ (s : SysState) (env : RunEnv) (err : String) (ps : List Nat),
       s.calls 0 = .running → s.calls 1 = .waiting →
       s.cachedAnalysis = none → runOutcome env = .error err →
       (execTrace s (.finish 0 env :: ps.map Event.poll)).calls 1 = .waiting) ∧
    (∀ (s : SysState) (env : RunEnv) (err : String) (r₀ : FullAnalysisReport),
       s.calls 0 = .running → s.calls 1 = .waiting →
       s.cachedAnalysis = some r₀ → runOutcome env = .error err →
       (execTrace s [.finish 0 env, .poll 1]).calls 1 = .resolved r₀) := by
  refine ⟨step_calls_waiting, execTrace_calls_waiting, ?_, ?_⟩
  · intro s env err ps h0 h1 hnc hfail
    rw [execTrace, List.foldl_cons, ← execTrace]
    have hstep : step s (.finish 0 env) =
        { s with isAnalysisRunning := false,
                 calls := setCall s.calls 0 (.rejected err) } := by
      simp [step, h0, hfail]
    rw [hstep, execTrace_polls_of_noCache ps
      { s with isAnalysisRunning := false,
               calls := setCall s.calls 0 (.rejected err) } hnc]
    simp [setCall, h1]
  · intro s env err r₀ h0 h1 hca hfail
    rw [execTrace, List.foldl_cons, List.foldl_cons, List.foldl_nil]
    have hstep : step s (.finish 0 env) =
        { s with isAnalysisRunning := false,
                 calls := setCall s.calls 0 (.rejected err) } := by
      simp [step, h0, hfail]
    rw [hstep]
    simp [step, setCall, h1, hca]

def sampleLlm : AnalysisResult := ⟨[], [], []⟩

def sampleReport : FullAnalysisReport :=
  ⟨"2024-01-01T00:00:00.000Z", sampleLlm, ⟨[], []⟩⟩

def failEnv : RunEnv := ⟨.ok [], none, "t"⟩

def okEnv : RunEnv := ⟨.ok [("A", ["B"])], some sampleLlm, "t"⟩

def okReport : FullAnalysisReport :=
  ⟨"t", sampleLlm, analyzeHeuristically [("A", ["B"])]⟩

def cachedIdleState : SysState :=
  ⟨some sampleReport, false, fun _ => .pending, 1⟩

def emptyIdleState : SysState := ⟨none, false, fun _ => .pending, 0⟩

def waitingStateNoCache : SysState :=
  ⟨none, true,
   fun n => if n = 0 then .running else if n = 1 then .waiting else .pending, 1⟩

def waitingStateCached : SysState :=
  ⟨some sampleReport, true,
   fun n => if n = 0 then .running else if n = 1 then .waiting else .pending, 1⟩

/-- Witness for C1: a failed refresh over a populated cache. -/
theorem claim_C1_witness :
    (execTrace cachedIdleState [.start 1, .finish 1 failEnv]).calls 1 =
      .rejected parserEmptyMsg ∧
    (execTrace cachedIdleState [.start 1, .finish 1 failEnv]).cachedAnalysis =
      some sampleReport ∧
    getAnalysisRoute (execTrace cachedIdleState [.start 1, .finish 1 failEnv]) =
      .successData sampleReport := by
  have h := claim_C1_failed_run_preserves_cache cachedIdleState failEnv
    parserEmptyMsg rfl rfl
  exact ⟨h.1, h.2.1, h.2.2 sampleReport rfl⟩

/-- Witness for C2: two waiters behind one successful in-flight run. -/
theorem claim_C2_witness :
    ((execTrace waitingStateNoCache ([.start 1, .start 2] ++ [5].map Event.poll ++
        [.finish 0 okEnv, .poll 1, .poll 2])).calls 1 = .resolved okReport) ∧
    ((execTrace waitingStateNoCache ([.start 1, .start 2] ++ [5].map Event.poll ++
        [.finish 0 okEnv, .poll 1, .poll 2])).calls 2 = .resolved okReport) ∧
    ((execTrace waitingStateNoCache ([.start 1, .start 2] ++ [5].map Event.poll ++
        [.finish 0 okEnv, .poll 1, .poll 2])).pipelineCount = 1) := by
  have h := claim_C2_single_flight waitingStateNoCache okEnv okReport [5]
    rfl rfl rfl rfl
  exact ⟨h.1, h.2.1, h.2.2.2⟩

/-- Witness for C8: an empty parse result rejects the on-demand run. -/
theorem claim_C8_witness :
    runAnalysisCore [] none "t" = .error parserEmptyMsg ∧
    (execTrace emptyIdleState [.start 1, .finish 1 ⟨.ok [], none, "t"⟩]).calls 1 =
      .rejected parserEmptyMsg ∧
    (execTrace emptyIdleState [.start 1, .finish 1 ⟨.ok [], none, "t"⟩]).cachedAnalysis =
      none := by
  have h := claim_C8_empty_graph_error emptyIdleState none "t" rfl
  exact ⟨h.1, h.2.2.1, h.2.2.2⟩

/-- Witness for C9: the four waiting-branch behaviours at concrete
states. -/
theorem claim_C9_witness :
    ((step waitingStateCached (.poll 1)).calls 1 = .waiting ∨
      ∃ v, (step waitingStateCached (.poll 1)).calls 1 = .resolved v ∧
        waitingStateCached.cachedAnalysis = some v ∧
        waitingStateCached.isAnalysisRunning = false) ∧
    ((execTrace waitingStateNoCache [.poll 3]).calls 1 = .waiting ∨
      ∃ v, (execTrace waitingStateNoCache [.poll 3]).calls 1 = .resolved v) ∧
    (execTrace waitingStateNoCache
        (.finish 0 failEnv :: [1].map Event.poll)).calls 1 = .waiting ∧
    (execTrace waitingStateCached [.finish 0 failEnv, .poll 1]).calls 1 =
      .resolved sampleReport := by
  refine ⟨claim_C9_waiting_branch.1 waitingStateCached (.poll 1) 1 rfl (by simp),
    claim_C9_waiting_branch.2.1 [.poll 3] waitingStateNoCache 1 rfl ?_,
    claim_C9_waiting_branch.2.2.1 waitingStateNoCache failEnv parserEmptyMsg [1]
      rfl rfl rfl rfl,
    claim_C9_waiting_branch.2.2.2 waitingStateCached failEnv parserEmptyMsg
      sampleReport rfl rfl rfl rfl⟩
  intro e he
  rw [List.mem_singleton.mp he]
  simp

theorem isWalk_append_edge (g : DependencyMap) (path : List String)
    (node dep : String) (hw : IsWalk g path) (hlast : path.getLast? = some node)
    (hedge : dep ∈ depsOf g node) : IsWalk g (path ++ [dep]) := by
  rw [IsWalk, List.chain'_append]
  refine ⟨hw, List.chain'_singleton _, ?_⟩
  intro x hx y hy
  rw [hlast] at hx
  simp only [List.head?_cons, Option.mem_def, Option.some.injEq] at hx hy
  rw [← hx, ← hy]
  exact hedge

theorem getLast?_drop_of_lt (l : List String) (i : Nat) (h : i < l.length) :
    (l.drop i).getLast? = l.getLast? := by
  conv_rhs => rw [← List.take_append_drop i l]
  rw [List.getLast?_append]
  cases hdl : (l.drop i).getLast? with
  | none =>
    rw [List.drop_eq_getElem_cons h] at hdl
    simp at hdl
    omega
  | some z => rfl

theorem closedWalk_of_mem_walk (g : DependencyMap) (path : List String)
    (node dep : String) (hw : IsWalk g path) (hlast : path.getLast? = some node)
    (hmem : dep ∈ path) (hedge : dep ∈ depsOf g node) :
    IsClosedWalk g (path.drop (path.indexOf dep) ++ [dep]) := by
  have hidx : path.indexOf dep < path.length := List.indexOf_lt_length.mpr hmem
  have hdropeq : path.drop (path.indexOf dep) =
      dep :: path.drop (path.indexOf dep + 1) := by
    rw [List.drop_eq_getElem_cons hidx, List.getElem_indexOf hidx]
  refine ⟨?_, ?_, ?_⟩
  · rw [List.length_append, hdropeq]
    simp
  · exact isWalk_append_edge g _ node dep (hw.suffix (List.drop_suffix _ _))
      (by rw [getLast?_drop_of_lt path _ hidx, hlast]) hedge
  · rw [List.getLast?_concat, hdropeq, List.cons_append, List.head?_cons]

theorem goDeps_frame (g : DependencyMap)
    (detect : String → List String → DfsState → DfsState)
    (Hdet : ∀ (d : String) (p : List String) (t : DfsState),
      d ∉ t.visited → t.recursionStack ⊆ t.visited →
      (detect d p t).recursionStack = t.recursionStack ∧
        t.visited ⊆ (detect d p t).visited) :
    ∀ (deps path : List String) (s : DfsState),
      s.recursionStack ⊆ s.visited →
      (goDeps g detect deps path s).recursionStack = s.recursionStack ∧
        s.visited ⊆ (goDeps g detect deps path s).visited
  | [], _, _, _ => ⟨rfl, fun _ hx => hx⟩
  | dep :: rest, path, s, hsv => by
    simp only [goDeps]
    by_cases h1 : dep ∈ s.recursionStack
    · rw [if_pos h1]
      exact goDeps_frame g detect Hdet rest path _ hsv
    · rw [if_neg h1]
      by_cases h2 : dep ∉ s.visited
      · rw [if_pos h2]
        obtain ⟨hst, hvis⟩ := Hdet dep path s h2 hsv
        have hsv2 : (detect dep path s).recursionStack ⊆ (detect dep path s).visited := by
          rw [hst]
          exact fun x hx => hvis (hsv hx)
        obtain ⟨hst2, hvis2⟩ := goDeps_frame g detect Hdet rest path (detect dep path s) hsv2
        exact ⟨hst2.trans hst, fun x hx => hvis2 (hvis hx)⟩
      · rw [if_neg h2]
        exact goDeps_frame g detect Hdet rest path s hsv

theorem detectCycle_frame (g : DependencyMap) :
    ∀ (fuel : Nat) (node : String) (path : List String) (s : DfsState),
      node ∉ s.visited → s.recursionStack ⊆ s.visited →
      (detectCycle g fuel node path s).recursionStack = s.recursionStack ∧
        s.visited ⊆ (detectCycle g fuel node path s).visited
  | 0, _, _, _, _, _ => ⟨rfl, fun _ hx => hx⟩
  | fuel + 1, node, path, s, hnv, hsv => by
    simp only [detectCycle]
    have hns : node ∉ s.recursionStack := fun h => hnv (hsv h)
    have hstack1 : setAdd s.recursionStack node = s.recursionStack ++ [node] := by
      rw [setAdd, if_neg hns]
    have hvis1 : setAdd s.visited node = s.visited ++ [node] := by
      rw [setAdd, if_neg hnv]
    have hsv1 : (setAdd s.recursionStack node) ⊆ (setAdd s.visited node) := by
      rw [hstack1, hvis1]
      exact List.append_subset.mpr
        ⟨fun x hx => List.mem_append_left _ (hsv hx), List.subset_append_right _ _⟩
    obtain ⟨hst2, hvis2⟩ := goDeps_frame g (detectCycle g fuel)
      (fun d p t hd ht => detectCycle_frame g fuel d p t hd ht)
      (depsOf g node) (path ++ [node])
      { s with visited := setAdd s.visited node,
               recursionStack := setAdd s.recursionStack node } hsv1
    constructor
    · show (goDeps g (detectCycle g fuel) (depsOf g node) (path ++ [node])
        { s with visited := setAdd s.visited node,
                 recursionStack := setAdd s.recursionStack node }).recursionStack.erase node =
        s.recursionStack
      rw [hst2]
      show (setAdd s.recursionStack node).erase node = s.recursionStack
      rw [hstack1, List.erase_append_right _ hns, List.erase_cons_head, List.append_nil]
    · refine fun x hx => hvis2 ?_
      show x ∈ setAdd s.visited node
      rw [hvis1]
      exact List.mem_append_left _ hx

theorem goDeps_nocycles (g : DependencyMap)
    (detect : String → List String → DfsState → DfsState)
    (hacyc : ∀ l, ¬ IsClosedWalk g l)
    (Hframe : ∀ (d : String) (p : List String) (t : DfsState),
      d ∉ t.visited → t.recursionStack ⊆ t.visited →
      (detect d p t).recursionStack = t.recursionStack ∧
        t.visited ⊆ (detect d p t).visited)
    (Hnc : ∀ (d : String) (p : List String) (t : DfsState),
      d ∉ t.visited → t.recursionStack ⊆ t.visited →
      IsWalk g (p ++ [d]) → (∀ x ∈ t.recursionStack, x ∈ p) →
      (detect d p t).cycles = t.cycles) :
    ∀ (deps path : List String) (node : String) (s : DfsState),
      path.getLast? = some node → IsWalk g path →
      (∀ d ∈ deps, d ∈ depsOf g node) →
      (∀ x ∈ s.recursionStack, x ∈ path) →
      s.recursionStack ⊆ s.visited →
      (goDeps g detect deps path s).cycles = s.cycles
  | [], _, _, _, _, _, _, _, _ => rfl
  | dep :: rest, path, node, s, hlast, hw, hdeps, hsp, hsv => by
    simp only [goDeps]
    by_cases h1 : dep ∈ s.recursionStack
    · exact absurd
        (closedWalk_of_mem_walk g path node dep hw hlast (hsp dep h1)
          (hdeps dep (List.mem_cons_self _ _)))
        (hacyc _)
    · rw [if_neg h1]
      by_cases h2 : dep ∉ s.visited
      · rw [if_pos h2]
        have hedge : dep ∈ depsOf g node := hdeps dep (List.mem_cons_self _ _)
        have hw1 : IsWalk g (path ++ [dep]) :=
          isWalk_append_edge g path node dep hw hlast hedge
        have hcyc := Hnc dep path s h2 hsv hw1 hsp
        obtain ⟨hst, hvis⟩ := Hframe dep path s h2 hsv
        have hrec := goDeps_nocycles g detect hacyc Hframe Hnc rest path node
          (detect dep path s) hlast hw
          (fun d hd => hdeps d (List.mem_cons_of_mem _ hd))
          (fun x hx => hsp x (by rw [← hst]; exact hx))
          (by rw [hst]; exact fun x hx => hvis (hsv hx))
        rw [hrec, hcyc]
      · rw [if_neg h2]
        exact goDeps_nocycles g detect hacyc Hframe Hnc rest path node s hlast hw
          (fun d hd => hdeps d (List.mem_cons_of_mem _ hd)) hsp hsv

theorem detectCycle_nocycles (g : DependencyMap)
    (hacyc : ∀ l, ¬ IsClosedWalk g l) :
    ∀ (fuel : Nat) (node : String) (path : List String) (s : DfsState),
      node ∉ s.visited → s.recursionStack ⊆ s.visited →
      IsWalk g (path ++ [node]) → (∀ x ∈ s.recursionStack, x ∈ path) →
      (detectCycle g fuel node path s).cycles = s.cycles
  | 0, _, _, _, _, _, _, _ => rfl
  | fuel + 1, node, path, s, hnv, hsv, hw, hsp => by
    simp only [detectCycle]
    have hns : node ∉ s.recursionStack := fun h => hnv (hsv h)
    have hstack1 : setAdd s.recursionStack node = s.recursionStack ++ [node] := by
      rw [setAdd, if_neg hns]
    have hvis1 : setAdd s.visited node = s.visited ++ [node] := by
      rw [setAdd, if_neg hnv]
    have hsv1 : (setAdd s.recursionStack node) ⊆ (setAdd s.visited node) := by
      rw [hstack1, hvis1]
      exact List.append_subset.mpr
        ⟨fun x hx => List.mem_append_left _ (hsv hx), List.subset_append_right _ _⟩
    show (goDeps g (detectCycle g fuel) (depsOf g node) (path ++ [node])
      { s with visited := setAdd s.visited node,
               recursionStack := setAdd s.recursionStack node }).cycles = s.cycles
    exact goDeps_nocycles g (detectCycle g fuel) hacyc
      (fun d p t hd ht => detectCycle_frame g fuel d p t hd ht)
      (fun d p t hd ht hwpd hxp =>
        detectCycle_nocycles g hacyc fuel d p t hd ht hwpd hxp)
      (depsOf g node) (path ++ [node]) node
      { s with visited := setAdd s.visited node,
               recursionStack := setAdd s.recursionStack node }
      (List.getLast?_concat _) hw (fun d hd => hd)
      (by
        show ∀ x ∈ setAdd s.recursionStack node, x ∈ path ++ [node]
        rw [hstack1]
        intro x hx
        rcases List.mem_append.mp hx with hx | hx
        · exact List.mem_append_left _ (hsp x hx)
        · exact List.mem_append_right _ hx)
      hsv1

theorem fold_roots_nocycles (g : DependencyMap)
    (hacyc : ∀ l, ¬ IsClosedWalk g l) (fuel : Nat) :
    ∀ (roots : List String) (s : DfsState), s.recursionStack = [] →
      (roots.foldl
        (fun s node => if node ∉ s.visited then detectCycle g fuel node [] s else s)
        s).cycles = s.cycles
  | [], _, _ => rfl
  | root :: roots, s, hst => by
    rw [List.foldl_cons]
    by_cases h : root ∉ s.visited
    · rw [if_pos h]
      have hsv : s.recursionStack ⊆ s.visited := by
        rw [hst]
        exact List.nil_subset _
      have hwalk : IsWalk g ([] ++ [root]) := List.chain'_singleton root
      have hc := detectCycle_nocycles g hacyc fuel root [] s h hsv hwalk
        (by rw [hst]; exact fun x hx => absurd hx (List.not_mem_nil x))
      have hfr := (detectCycle_frame g fuel root [] s h hsv).1
      rw [fold_roots_nocycles g hacyc fuel roots _ (by rw [hfr, hst]), hc]
    · rw [if_neg h]
      exact fold_roots_nocycles g hacyc fuel roots s hst

/-- **C7**: a dependency graph without any closed walk through its edges
produces an empty cycle list. -/
theorem claim_C7_acyclic_no_cycles (g : DependencyMap)
    (hacyc : ∀ l, ¬ IsClosedWalk g l) :
    findCircularDependencies g = [] := by
  rw [findCircularDependencies]
  exact fold_roots_nocycles g hacyc (allNodesOf g).length.succ (allNodesOf g)
    ⟨[], [], []⟩ rfl

theorem acyclicExample_no_closed_walk :
    ∀ l : List String, ¬ IsClosedWalk [("A", ["B"])] l := by
  rintro l ⟨hlen, hwalk, hcl⟩
  match l with
  | [] => simp at hlen
  | [a] => simp at hlen
  | a :: b :: rest =>
    rw [IsWalk, List.chain'_cons] at hwalk
    obtain ⟨hab, hrest⟩ := hwalk
    by_cases h : a = "A"
    · subst h
      have hb : b = "B" := by
        have hd : depsOf [("A", ["B"])] "A" = ["B"] := by decide
        rw [hd] at hab
        exact List.mem_singleton.mp hab
      subst hb
      match rest with
      | [] => simp at hcl
      | c :: rest' =>
        rw [List.chain'_cons] at hrest
        have hd : depsOf [("A", ["B"])] "B" = [] := by decide
        rw [hd] at hrest
        exact absurd hrest.1 (List.not_mem_nil c)
    · have hd : depsOf [("A", ["B"])] a = [] := by
        rw [depsOf, mapGet, List.find?]
        have : (("A", ["B"]).1 == a) = false :=
          beq_eq_false_iff_ne.mpr (fun h' => h h'.symm)
        rw [this]
        rfl
      rw [hd] at hab
      exact absurd hab (List.not_mem_nil b)

/-- Witness for C7: the single-edge acyclic graph `{A → B}` yields no
cycle records. -/
theorem claim_C7_witness : findCircularDependencies [("A", ["B"])] = [] :=
  claim_C7_acyclic_no_cycles [("A", ["B"])] acyclicExample_no_closed_walk

theorem goDeps_closed (g : DependencyMap)
    (detect : String → List String → DfsState → DfsState)
    (Hframe : ∀ (d : String) (p : List String) (t : DfsState),
      d ∉ t.visited → t.recursionStack ⊆ t.visited →
      (detect d p t).recursionStack = t.recursionStack ∧
        t.visited ⊆ (detect d p t).visited)
    (Hcl : ∀ (d : String) (p : List String) (t : DfsState),
      d ∉ t.visited → t.recursionStack ⊆ t.visited →
      IsWalk g (p ++ [d]) → (∀ x ∈ t.recursionStack, x ∈ p) →
      ∀ c ∈ (detect d p t).cycles, c ∈ t.cycles ∨ IsClosedWalk g c) :
    ∀ (deps path : List String) (node : String) (s : DfsState),
      path.getLast? = some node → IsWalk g path →
      (∀ d ∈ deps, d ∈ depsOf g node) →
      (∀ x ∈ s.recursionStack, x ∈ path) →
      s.recursionStack ⊆ s.visited →
      ∀ c ∈ (goDeps g detect deps path s).cycles, c ∈ s.cycles ∨ IsClosedWalk g c
  | [], _, _, _, _, _, _, _, _, _, hc => Or.inl hc
  | dep :: rest, path, node, s, hlast, hw, hdeps, hsp, hsv, c, hc => by
    simp only [goDeps] at hc
    by_cases h1 : dep ∈ s.recursionStack
    · rw [if_pos h1] at hc
      have hrec := goDeps_closed g detect Hframe Hcl rest path node
        { s with cycles :=
            s.cycles ++ [path.drop (path.indexOf dep) ++ [dep]] }
        hlast hw (fun d hd => hdeps d (List.mem_cons_of_mem _ hd)) hsp hsv c hc
      rcases hrec with hmem | hclosed
      · rcases List.mem_append.mp hmem with hmem | hmem
        · exact Or.inl hmem
        · right
          rw [List.mem_singleton.mp hmem]
          exact closedWalk_of_mem_walk g path node dep hw hlast (hsp dep h1)
            (hdeps dep (List.mem_cons_self _ _))
      · exact Or.inr hclosed
    · rw [if_neg h1] at hc
      by_cases h2 : dep ∉ s.visited
      · rw [if_pos h2] at hc
        have hedge : dep ∈ depsOf g node := hdeps dep (List.mem_cons_self _ _)
        have hw1 : IsWalk g (path ++ [dep]) :=
          isWalk_append_edge g path node dep hw hlast hedge
        obtain ⟨hst, hvis⟩ := Hframe dep path s h2 hsv
        have hrec := goDeps_closed g detect Hframe Hcl rest path node
          (detect dep path s) hlast hw
          (fun d hd => hdeps d (List.mem_cons_of_mem _ hd))
          (fun x hx => hsp x (by rw [← hst]; exact hx))
          (by rw [hst]; exact fun x hx => hvis (hsv hx)) c hc
        rcases hrec with hmem | hclosed
        · exact Hcl dep path s h2 hsv hw1 hsp c hmem
        · exact Or.inr hclosed
      · rw [if_neg h2] at hc
        exact goDeps_closed g detect Hframe Hcl rest path node s hlast hw
          (fun d hd => hdeps d (List.mem_cons_of_mem _ hd)) hsp hsv c hc

theorem detectCycle_closed (g : DependencyMap) :
    ∀ (fuel : Nat) (node : String) (path : List String) (s : DfsState),
      node ∉ s.visited → s.recursionStack ⊆ s.visited →
      IsWalk g (path ++ [node]) → (∀ x ∈ s.recursionStack, x ∈ path) →
      ∀ c ∈ (detectCycle g fuel node path s).cycles,
        c ∈ s.cycles ∨ IsClosedWalk g c
  | 0, _, _, _, _, _, _, _, _, hc => Or.inl hc
  | fuel + 1, node, path, s, hnv, hsv, hw, hsp, c, hc => by
    simp only [detectCycle] at hc
    have hns : node ∉ s.recursionStack := fun h => hnv (hsv h)
    have hstack1 : setAdd s.recursionStack node = s.recursionStack ++ [node] := by
      rw [setAdd, if_neg hns]
    have hvis1 : setAdd s.visited node = s.visited ++ [node] := by
      rw [setAdd, if_neg hnv]
    have hsv1 : (setAdd s.recursionStack node) ⊆ (setAdd s.visited node) := by
      rw [hstack1, hvis1]
      exact List.append_subset.mpr
        ⟨fun x hx => List.mem_append_left _ (hsv hx), List.subset_append_right _ _⟩
    exact goDeps_closed g (detectCycle g fuel)
      (fun d p t hd ht => detectCycle_frame g fuel d p t hd ht)
      (fun d p t hd ht hwpd hxp => detectCycle_closed g fuel d p t hd ht hwpd hxp)
      (depsOf g node) (path ++ [node]) node
      { s with visited := setAdd s.visited node,
               recursionStack := setAdd s.recursionStack node }
      (List.getLast?_concat _) hw (fun d hd => hd)
      (by
        show ∀ x ∈ setAdd s.recursionStack node, x ∈ path ++ [node]
        rw [hstack1]
        intro x hx
        rcases List.mem_append.mp hx with hx | hx
        · exact List.mem_append_left _ (hsp x hx)
        · exact List.mem_append_right _ hx)
      hsv1 c hc

theorem fold_roots_closed (g : DependencyMap) (fuel : Nat) :
    ∀ (roots : List String) (s : DfsState), s.recursionStack = [] →
      ∀ c ∈ (roots.foldl
        (fun s node => if node ∉ s.visited then detectCycle g fuel node [] s else s)
        s).cycles, c ∈ s.cycles ∨ IsClosedWalk g c
  | [], _, _, _, hc => Or.inl hc
  | root :: roots, s, hst, c, hc => by
    rw [List.foldl_cons] at hc
    by_cases h : root ∉ s.visited
    · rw [if_pos h] at hc
      have hsv : s.recursionStack ⊆ s.visited := by
        rw [hst]
        exact List.nil_subset _
      have hfr := (detectCycle_frame g fuel root [] s h hsv).1
      rcases fold_roots_closed g fuel roots _ (by rw [hfr, hst]) c hc with hmem | hclosed
      · exact detectCycle_closed g fuel root [] s h hsv (List.chain'_singleton root)
          (by rw [hst]; exact fun x hx => absurd hx (List.not_mem_nil x)) c hmem
      · exact Or.inr hclosed
    · rw [if_neg h] at hc
      exact fold_roots_closed g fuel roots s hst c hc

/-- **C10**: every record returned by the cycle detector is a closed walk
in the input graph: non-empty, first element equal to the last, and every
consecutive pair joined by an edge of the graph. -/
theorem claim_C10_records_are_closed_walks (g : DependencyMap)
    (c : List String) (hc : c ∈ findCircularDependencies g) :
    c ≠ [] ∧ c.head? = c.getLast? ∧ IsWalk g c := by
  rw [findCircularDependencies] at hc
  rcases fold_roots_closed g (allNodesOf g).length.succ (allNodesOf g)
      ⟨[], [], []⟩ rfl c hc with hmem | hclosed
  · exact absurd hmem (List.not_mem_nil c)
  · obtain ⟨hlen, hwalk, hcl⟩ := hclosed
    refine ⟨?_, hcl.symm ▸ ?_, hwalk⟩
    · intro h
      rw [h] at hlen
      simp at hlen
    · rfl

/-- Witness for C10: the record `[A, B, A]` of the two-cycle `{A→B, B→A}`
is a closed walk of that graph. -/
theorem claim_C10_witness :
    (["A", "B", "A"] ∈ findCircularDependencies [("A", ["B"]), ("B", ["A"])]) ∧
    (["A", "B", "A"] ≠ ([] : List String) ∧
      (["A", "B", "A"] : List String).head? = (["A", "B", "A"] : List String).getLast? ∧
      IsWalk [("A", ["B"]), ("B", ["A"])] ["A", "B", "A"]) :=
  ⟨by decide,
   claim_C10_records_are_closed_walks [("A", ["B"]), ("B", ["A"])]
     ["A", "B", "A"] (by decide)⟩
